import Mathlib

/-!
Verification of the bencoding codec (crates/bencoding) of the
`sirreidlos/my-own` repository: a shallow embedding, in Lean, of
`bencode.rs` (the value tree), `encode.rs` (the canonical serializer) and
`decode.rs` (the cursor-based recursive-descent parser), together with
proofs and refutations of the specified properties (round-trips, canonical
dictionary ordering, integer edge cases, truncation behaviour, duplicate
keys, malformed lookahead).

Bytes are modelled as `Nat` (the code never performs `u8` arithmetic:
bytes are only compared, so no wraparound is involved).  The decoder's
mutable `cursor` into the input buffer is modelled by passing the
not-yet-consumed suffix of the buffer explicitly; a Rust index/slice
operation that would panic (index out of bounds) is modelled by the
explicit `DecodeResult.panic` outcome.
-/

namespace Bencoding

/-- `bencode.rs`: the four-variant value tree `BencodeType`.  A Rust
`BTreeMap<Vec<u8>, BencodeType>` is modelled as its entry list in
strictly ascending key order (which is exactly how the Rust map stores
and iterates its entries); the ordering invariant is stated separately by
`wellFormed` below. -/
inductive BencodeType where
  | ByteString : List Nat → BencodeType
  | Integer : Int → BencodeType
  | List : List BencodeType → BencodeType
  | Dictionary : List (List Nat × BencodeType) → BencodeType

/-- `decode.rs`: the error enum `DecodeError`.  The Rust `InvalidUtf8`
variant carries the `Utf8Error` payload; no claim inspects that payload,
so it is not modelled. -/
inductive DecodeError where
  | InvalidUtf8 : DecodeError
  | InvalidInteger : DecodeError
  | UnexpectedEndOfInput : DecodeError
  | UnexpectedCharacter : Nat → DecodeError
  | UnexpectedFormat : DecodeError
deriving DecidableEq

/-- Outcome of a decoder call: Rust's `Result<α, DecodeError>` extended
with `panic`, the outcome of an out-of-bounds index or slice
(`self.input[self.cursor]` / `self.input[a..b]`). -/
inductive DecodeResult (α : Type) where
  | ok : α → DecodeResult α
  | err : DecodeError → DecodeResult α
  | panic : DecodeResult α

/-- Strict lexicographic order on byte vectors: the derived
`Ord for Vec<u8>` used by `BTreeMap<Vec<u8>, _>` to order its keys. -/
def bytesLt : List Nat → List Nat → Bool
  | [], [] => false
  | [], _ :: _ => true
  | _ :: _, [] => false
  | a :: as, b :: bs => a < b || (a = b && bytesLt as bs)

/-- `BTreeMap::insert` on the sorted entry list: places the new pair at
its ordered position, replacing the value if the key is already
present. -/
def btreeInsert (k : List Nat) (v : BencodeType) :
    List (List Nat × BencodeType) → List (List Nat × BencodeType)
  | [] => [(k, v)]
  | (k', v') :: es =>
    if bytesLt k k' then (k, v) :: (k', v') :: es
    else if k = k' then (k, v) :: es
    else (k', v') :: btreeInsert k v es

/-- Insert a sequence of key/value pairs in order into a map (the effect
of repeated `BTreeMap::insert`, as performed by `decode_dictionary` and
by a caller that builds a dictionary pair by pair). -/
def btreeInsertAll (acc : List (List Nat × BencodeType))
    (pairs : List (List Nat × BencodeType)) : List (List Nat × BencodeType) :=
  pairs.foldl (fun m p => btreeInsert p.1 p.2 m) acc

/-- `BTreeMap::get` on the entry list. -/
def btreeGet (k : List Nat) : List (List Nat × BencodeType) → Option BencodeType
  | [] => none
  | (k', v) :: es => if k = k' then some v else btreeGet k es

/-- The key list is strictly ascending in byte-lexicographic order (the
structural invariant of a `BTreeMap`'s entry sequence). -/
def keysStrictlySorted : List (List Nat) → Bool
  | [] => true
  | [_] => true
  | a :: b :: rest => bytesLt a b && keysStrictlySorted (b :: rest)

mutual
/-- A value tree that denotes an actual Rust `BencodeType` value:
integers fit in `i64`, byte-string and key lengths fit in `usize`
(64-bit), and every dictionary entry list is strictly sorted by key, as
a `BTreeMap` is by construction. -/
def wellFormed : BencodeType → Bool
  | .ByteString s => decide (s.length < 2 ^ 64)
  | .Integer n => decide (-(2 ^ 63) ≤ n ∧ n < 2 ^ 63)
  | .List vs => wellFormedList vs
  | .Dictionary es => keysStrictlySorted (es.map Prod.fst) && wellFormedEntries es

def wellFormedList : List BencodeType → Bool
  | [] => true
  | v :: vs => wellFormed v && wellFormedList vs

def wellFormedEntries : List (List Nat × BencodeType) → Bool
  | [] => true
  | (k, v) :: es => decide (k.length < 2 ^ 64) && wellFormed v && wellFormedEntries es
end

/-- Decimal ASCII digits of `n`, most significant first, with a fuel
argument (`fuel > n` suffices) so that the definition is structural.
Models the output of Rust's `format!("{}", n)` for unsigned `n`. -/
def natStrAux : Nat → Nat → List Nat
  | 0, _ => []
  | fuel + 1, n => if n < 10 then [0x30 + n] else natStrAux fuel (n / 10) ++ [0x30 + n % 10]

/-- Decimal ASCII representation of a natural number (no sign, no
leading zeros, `0` rendered as `"0"`). -/
def natStr (n : Nat) : List Nat := natStrAux (n + 1) n

/-- Decimal ASCII representation of a signed integer: Rust's
`i64` `Display`, as used by `format!("i{self}e")`. -/
def intStr (i : Int) : List Nat :=
  if i < 0 then 0x2D :: natStr i.natAbs else natStr i.toNat

/-- `encode.rs`, `impl Encodable for Vec<u8>`: decimal length, `:`,
then the raw bytes verbatim. -/
def encodeBytes (s : List Nat) : List Nat := natStr s.length ++ 0x3A :: s

mutual
/-- `encode.rs`, `impl Encodable for BencodeType` (dispatch to the
per-variant impls). -/
def encode : BencodeType → List Nat
  | .ByteString s => encodeBytes s
  | .Integer i => 0x69 :: intStr i ++ [0x65]
  | .List vs => 0x6C :: encodeList vs ++ [0x65]
  | .Dictionary es => 0x64 :: encodeEntries es ++ [0x65]

/-- Body of `impl Encodable for Vec<BencodeType>`: each element's
encoding in sequence order. -/
def encodeList : List BencodeType → List Nat
  | [] => []
  | v :: vs => encode v ++ encodeList vs

/-- Body of `impl Encodable for BTreeMap<Vec<u8>, BencodeType>`: for
each entry in stored (ascending) order, the key's byte-string encoding
followed by the value's encoding. -/
def encodeEntries : List (List Nat × BencodeType) → List Nat
  | [] => []
  | (k, v) :: es => encodeBytes k ++ encode v ++ encodeEntries es
end

/-- One step of the `std::str::from_utf8` validation automaton.
`pending` is the number of continuation bytes still expected and
`lo`/`hi` bound the next byte when `pending > 0` (the first continuation
byte of a sequence has a restricted range for `E0`/`ED`/`F0`/`F4` leads,
ruling out overlong forms, surrogates and values above `U+10FFFF`, per
the RFC 3629 table; later continuation bytes are `80..=BF`). -/
def utf8Aux (pending lo hi : Nat) : List Nat → Bool
  | [] => pending = 0
  | b :: rest =>
    if pending = 0 then
      if b ≤ 0x7F then utf8Aux 0 0 0 rest
      else if 0xC2 ≤ b && b ≤ 0xDF then utf8Aux 1 0x80 0xBF rest
      else if b = 0xE0 then utf8Aux 2 0xA0 0xBF rest
      else if (0xE1 ≤ b && b ≤ 0xEC) || (0xEE ≤ b && b ≤ 0xEF) then utf8Aux 2 0x80 0xBF rest
      else if b = 0xED then utf8Aux 2 0x80 0x9F rest
      else if b = 0xF0 then utf8Aux 3 0x90 0xBF rest
      else if 0xF1 ≤ b && b ≤ 0xF3 then utf8Aux 3 0x80 0xBF rest
      else if b = 0xF4 then utf8Aux 3 0x80 0x8F rest
      else false
    else
      if lo ≤ b && b ≤ hi then utf8Aux (pending - 1) 0x80 0xBF rest
      else false

/-- Success condition of `std::str::from_utf8`: the byte list is valid
UTF-8. -/
def validUtf8 (l : List Nat) : Bool := utf8Aux 0 0 0 l

/-- An ASCII decimal digit `b'0'..=b'9'`. -/
def isDigit (b : Nat) : Bool := 0x30 ≤ b && b ≤ 0x39

/-- Numeric value of a nonempty all-digit run, most significant first
(`none` on the empty run or on any non-digit byte). -/
def digitsValueAux (acc : Nat) : List Nat → Option Nat
  | [] => some acc
  | b :: bs => if isDigit b then digitsValueAux (acc * 10 + (b - 0x30)) bs else none

/-- Value denoted by a digit run; `none` if empty or not all digits. -/
def digitsValue : List Nat → Option Nat
  | [] => none
  | bs => digitsValueAux 0 bs

/-- Rust `str::parse::<usize>` on a 64-bit target: an optional leading
`+`, then a nonempty digit run whose value fits in `u64` (the Rust
parser fails with an overflow error otherwise; accumulating into `Nat`
and checking the bound at the end is equivalent). -/
def parseUsize (s : List Nat) : Option Nat :=
  match s with
  | [] => none
  | b :: rest =>
    match digitsValue (if b = 0x2B then rest else b :: rest) with
    | some n => if n < 2 ^ 64 then some n else none
    | none => none

/-- Rust `str::parse::<i64>`: an optional leading `+` or `-`, then a
nonempty digit run; the signed value must fit in `i64`
(`-2^63 ≤ v ≤ 2^63 - 1`). -/
def parseI64 (s : List Nat) : Option Int :=
  match s with
  | [] => none
  | b :: rest =>
    if b = 0x2D then
      match digitsValue rest with
      | some n => if n ≤ 2 ^ 63 then some (-(n : Int)) else none
      | none => none
    else
      match digitsValue (if b = 0x2B then rest else b :: rest) with
      | some n => if n ≤ 2 ^ 63 - 1 then some (n : Int) else none
      | none => none

/-- The scan loop `while self.input.get(self.cursor) != Some(&delim)`
(with the in-loop bounds check) of `decode_bytestring` /
`decode_integer`: splits the input at the first occurrence of `delim`,
returning the span before it and the suffix after it; `none` (which the
callers turn into `UnexpectedEndOfInput`) when `delim` never occurs. -/
def scanTo (delim : Nat) : List Nat → Option (List Nat × List Nat)
  | [] => none
  | b :: bs =>
    if b = delim then some ([], bs)
    else match scanTo delim bs with
      | some (span, rest) => some (b :: span, rest)
      | none => none

/-- `Decoder::decode_bytestring`, applied to the buffer suffix starting
at the cursor: scan to the `:`, parse the digit run as a `usize` length
(via `from_utf8` then `parse`), then take exactly `length` bytes.  The
Rust slice `self.input[string_start..self.cursor]` panics when fewer
than `length` bytes remain. -/
def decodeBytestring (input : List Nat) : DecodeResult (BencodeType × List Nat) :=
  match scanTo 0x3A input with
  | none => .err .UnexpectedEndOfInput
  | some (span, rest) =>
    if validUtf8 span then
      match parseUsize span with
      | none => .err .InvalidInteger
      | some len =>
        if len ≤ rest.length then .ok (.ByteString (rest.take len), rest.drop len)
        else .panic
    else .err .InvalidUtf8

/-- `Decoder::decode_integer`, applied to the buffer suffix just after
the leading `i` (which `consume_byte` skipped): scan to the terminating
`e`, check UTF-8, reject a leading zero on a span longer than one byte,
reject the literal `-0`, then `parse::<i64>`. -/
def decodeInteger (rest : List Nat) : DecodeResult (BencodeType × List Nat) :=
  match scanTo 0x65 rest with
  | none => .err .UnexpectedEndOfInput
  | some (span, rest') =>
    if validUtf8 span then
      if 1 < span.length ∧ span.head? = some 0x30 then .err .InvalidInteger
      else if span = [0x2D, 0x30] then .err .InvalidInteger
      else
        match parseI64 span with
        | none => .err .InvalidInteger
        | some n => .ok (.Integer n, rest')
    else .err .InvalidUtf8

mutual
/-- `Decoder::decode`: dispatch on the lookahead byte at the cursor.
`self.input[self.cursor]` is an unchecked index, so an exhausted buffer
panics.  The `fuel` argument only makes the mutual recursion
structural: every recursive call consumes at least one unit, and the
top-level `decode` below supplies `2 * length + 2` units, which the
recursion (at most two units per input byte: one `decode` dispatch plus
one loop step of `decode_list` / `decode_dictionary`) can never
exhaust, so the `fuel = 0` case is unreachable from `decode`. -/
def decodeF : Nat → List Nat → DecodeResult (BencodeType × List Nat)
  | 0, _ => .panic
  | _ + 1, [] => .panic
  | fuel + 1, c :: rest =>
    if c = 0x69 then decodeInteger rest
    else if c = 0x6C then decodeListF fuel rest []
    else if c = 0x64 then decodeDictF fuel rest []
    else if isDigit c then decodeBytestring (c :: rest)
    else .err (.UnexpectedCharacter c)

/-- Loop of `Decoder::decode_list` (after the leading `l` was consumed),
with `acc` the elements pushed so far: the guard
`self.input.get(self.cursor) != Some(&b'e')` is `input.head? ≠ some 'e'`;
on `e` consume it and stop.  Otherwise decode one value (on an exhausted
buffer this is `decode` of nothing, which panics), then fail with
`UnexpectedEndOfInput` if the cursor reached the end of the buffer, else
continue. -/
def decodeListF : Nat → List Nat → List BencodeType →
    DecodeResult (BencodeType × List Nat)
  | 0, _, _ => .panic
  | fuel + 1, input, acc =>
    if input.head? = some 0x65 then .ok (.List acc, input.tail)
    else
      match decodeF fuel input with
      | .ok (v, rest') =>
        if rest' = [] then .err .UnexpectedEndOfInput
        else decodeListF fuel rest' (acc ++ [v])
      | .err e => .err e
      | .panic => .panic

/-- Loop of `Decoder::decode_dictionary` (after the leading `d`), with
`acc` the `BTreeMap` built so far: stop at `e` (same guard as the list
loop); otherwise decode a byte-string key (`UnexpectedFormat` if the
production returned another variant — dead in practice), decode a value,
insert the pair, then fail with `UnexpectedEndOfInput` if the cursor
reached the end, else continue. -/
def decodeDictF : Nat → List Nat → List (List Nat × BencodeType) →
    DecodeResult (BencodeType × List Nat)
  | 0, _, _ => .panic
  | fuel + 1, input, acc =>
    if input.head? = some 0x65 then .ok (.Dictionary acc, input.tail)
    else
      match decodeBytestring input with
      | .ok (k, rest1) =>
        match k with
        | .ByteString kb =>
          match decodeF fuel rest1 with
          | .ok (v, rest2) =>
            if rest2 = [] then .err .UnexpectedEndOfInput
            else decodeDictF fuel rest2 (btreeInsert kb v acc)
          | .err e => .err e
          | .panic => .panic
        | _ => .err .UnexpectedFormat
      | .err e => .err e
      | .panic => .panic
end

/-- `Decoder::new(input)` followed by `decode()`: parse one value from
the start of the buffer, returning it with the unconsumed suffix.  The
fuel `2 * input.length + 2` strictly dominates the recursion depth (see
`decodeF`). -/
def decode (input : List Nat) : DecodeResult (BencodeType × List Nat) :=
  decodeF (2 * input.length + 2) input

/-! ### Order properties of the key comparison -/

/-- `bytesLt` as a relation, for use with `List.Pairwise` / `List.Chain'`. -/
def BytesLt (a b : List Nat) : Prop := bytesLt a b = true

theorem bytesLt_irrefl : ∀ a : List Nat, bytesLt a a = false
  | [] => rfl
  | a :: as => by simp [bytesLt, bytesLt_irrefl as]

theorem bytesLt_trans (a : List Nat) :
    ∀ b c, bytesLt a b = true → bytesLt b c = true → bytesLt a c = true := by
  induction a with
  | nil =>
    intro b c hab hbc
    cases b with
    | nil => simp [bytesLt] at hab
    | cons b bs =>
      cases c with
      | nil => simp [bytesLt] at hbc
      | cons c cs => simp [bytesLt]
  | cons a as ih =>
    intro b c hab hbc
    cases b with
    | nil => simp [bytesLt] at hab
    | cons b bs =>
      cases c with
      | nil => simp [bytesLt] at hbc
      | cons c cs =>
        simp only [bytesLt, Bool.or_eq_true, Bool.and_eq_true, decide_eq_true_eq] at hab hbc ⊢
        rcases hab with h1 | ⟨he1, h1⟩
        · rcases hbc with h2 | ⟨he2, h2⟩
          · exact Or.inl (Nat.lt_trans h1 h2)
          · exact Or.inl (he2 ▸ h1)
        · rcases hbc with h2 | ⟨he2, h2⟩
          · exact Or.inl (he1 ▸ h2)
          · exact Or.inr ⟨he1.trans he2, ih bs cs h1 h2⟩

theorem bytesLt_asymm (a : List Nat) :
    ∀ b, bytesLt a b = true → bytesLt b a = false := by
  induction a with
  | nil =>
    intro b hab
    cases b with
    | nil => simp [bytesLt] at hab
    | cons b bs => rfl
  | cons a as ih =>
    intro b hab
    cases b with
    | nil => simp [bytesLt] at hab
    | cons b bs =>
      simp only [bytesLt, Bool.or_eq_true, Bool.and_eq_true, decide_eq_true_eq] at hab
      rcases hab with h | ⟨he, h⟩
      · have h1 : ¬ b < a := Nat.lt_asymm h
        have h2 : ¬ b = a := fun e => Nat.lt_irrefl a (e ▸ h)
        simp [bytesLt, h1, h2]
      · subst he
        simp [bytesLt, ih bs h]

theorem bytesLt_total (a : List Nat) :
    ∀ b, bytesLt a b = true ∨ a = b ∨ bytesLt b a = true := by
  induction a with
  | nil =>
    intro b
    cases b with
    | nil => exact Or.inr (Or.inl rfl)
    | cons b bs => exact Or.inl rfl
  | cons a as ih =>
    intro b
    cases b with
    | nil => exact Or.inr (Or.inr rfl)
    | cons b bs =>
      rcases Nat.lt_trichotomy a b with h | h | h
      · left; simp [bytesLt, h]
      · subst h
        rcases ih bs with h' | h' | h'
        · left; simp [bytesLt, h']
        · right; left; rw [h']
        · right; right; simp [bytesLt, h']
      · right; right; simp [bytesLt, h]

theorem bytesLt_of_not (a b : List Nat) (hne : a ≠ b) (hlt : bytesLt a b = false) :
    bytesLt b a = true := by
  rcases bytesLt_total a b with h | h | h
  · rw [h] at hlt; cases hlt
  · exact absurd h hne
  · exact h

instance : IsTrans (List Nat) BytesLt := ⟨fun a b c => bytesLt_trans a b c⟩

instance : IsIrrefl (List Nat) BytesLt :=
  ⟨fun a h => by rw [BytesLt, bytesLt_irrefl] at h; cases h⟩

theorem keysStrictlySorted_iff_chain' :
    ∀ l : List (List Nat), keysStrictlySorted l = true ↔ List.Chain' BytesLt l
  | [] => by simp [keysStrictlySorted]
  | [a] => by simp [keysStrictlySorted]
  | a :: b :: rest => by
    rw [keysStrictlySorted, Bool.and_eq_true, keysStrictlySorted_iff_chain' (b :: rest),
      List.chain'_cons]
    exact and_congr_left fun _ => Iff.rfl

theorem keysStrictlySorted_iff_pairwise (l : List (List Nat)) :
    keysStrictlySorted l = true ↔ l.Pairwise BytesLt := by
  rw [keysStrictlySorted_iff_chain']
  exact List.chain'_iff_pairwise

theorem keysStrictlySorted_nodup {l : List (List Nat)}
    (h : keysStrictlySorted l = true) : l.Nodup :=
  ((keysStrictlySorted_iff_pairwise l).mp h).nodup

/-! ### Decimal rendering and parsing -/

theorem natStrAux_digits :
    ∀ fuel n, n < fuel → ∀ b ∈ natStrAux fuel n, isDigit b = true := by
  intro fuel
  induction fuel with
  | zero => intro n hn; omega
  | succ fuel ih =>
    intro n hn b hb
    rw [natStrAux] at hb
    by_cases h10 : n < 10
    · rw [if_pos h10] at hb
      simp only [List.mem_singleton] at hb
      subst hb
      simp only [isDigit, Bool.and_eq_true, decide_eq_true_eq]
      omega
    · rw [if_neg h10] at hb
      rcases List.mem_append.mp hb with h | h
      · have hdiv : n / 10 < fuel := by
          have := Nat.div_lt_self (by omega : 0 < n) (by omega : 1 < 10)
          omega
        exact ih (n / 10) hdiv b h
      · simp only [List.mem_singleton] at h
        subst h
        simp only [isDigit, Bool.and_eq_true, decide_eq_true_eq]
        have := Nat.mod_lt n (by omega : 0 < 10)
        omega

theorem natStrAux_ne_nil (fuel n : Nat) (h : n < fuel) : natStrAux fuel n ≠ [] := by
  cases fuel with
  | zero => omega
  | succ fuel =>
    rw [natStrAux]
    by_cases h10 : n < 10
    · rw [if_pos h10]; simp
    · rw [if_neg h10]; simp

theorem natStr_digits (n : Nat) : ∀ b ∈ natStr n, isDigit b = true :=
  natStrAux_digits (n + 1) n (Nat.lt_succ_self n)

theorem natStr_ne_nil (n : Nat) : natStr n ≠ [] :=
  natStrAux_ne_nil (n + 1) n (Nat.lt_succ_self n)

theorem natStrAux_head_ne_zero :
    ∀ fuel n, n < fuel → 1 ≤ n → (natStrAux fuel n).head? ≠ some 0x30 := by
  intro fuel
  induction fuel with
  | zero => intro n hn; omega
  | succ fuel ih =>
    intro n hn h1
    rw [natStrAux]
    by_cases h10 : n < 10
    · rw [if_pos h10]
      simp only [List.head?_cons, ne_eq, Option.some.injEq]
      omega
    · rw [if_neg h10]
      have hdiv : n / 10 < fuel := by
        have := Nat.div_lt_self (by omega : 0 < n) (by omega : 1 < 10)
        omega
      have h1' : 1 ≤ n / 10 := by
        have := Nat.div_le_div_right (c := 10) (by omega : 10 ≤ n)
        simpa using this
      obtain ⟨x, xs, hx⟩ := List.exists_cons_of_ne_nil (natStrAux_ne_nil fuel (n / 10) hdiv)
      have := ih (n / 10) hdiv h1'
      rw [hx] at this ⊢
      simpa using this

theorem natStr_head_ne_zero (n : Nat) (h : 1 ≤ n) : (natStr n).head? ≠ some 0x30 :=
  natStrAux_head_ne_zero (n + 1) n (Nat.lt_succ_self n) h

theorem digitsValueAux_append (acc : Nat) :
    ∀ xs ys, digitsValueAux acc (xs ++ ys) =
      (digitsValueAux acc xs).bind fun a => digitsValueAux a ys := by
  intro xs
  induction xs generalizing acc with
  | nil => intro ys; simp [digitsValueAux]
  | cons x xs ih =>
    intro ys
    rw [List.cons_append, digitsValueAux, digitsValueAux]
    by_cases h : isDigit x = true
    · rw [if_pos h, if_pos h, ih]
    · rw [if_neg h, if_neg h]; rfl

theorem digitsValueAux_natStrAux :
    ∀ fuel n acc, n < fuel →
      digitsValueAux acc (natStrAux fuel n) =
        some (acc * 10 ^ (natStrAux fuel n).length + n) := by
  intro fuel
  induction fuel with
  | zero => intro n acc hn; omega
  | succ fuel ih =>
    intro n acc hn
    rw [natStrAux]
    by_cases h10 : n < 10
    · rw [if_pos h10]
      have hd : isDigit (0x30 + n) = true := by
        simp only [isDigit, Bool.and_eq_true, decide_eq_true_eq]
        omega
      rw [digitsValueAux, if_pos hd, digitsValueAux]
      simp only [List.length_singleton, pow_one, Option.some.injEq]
      omega
    · rw [if_neg h10]
      have hdiv : n / 10 < fuel := by
        have := Nat.div_lt_self (by omega : 0 < n) (by omega : 1 < 10)
        omega
      rw [digitsValueAux_append, ih (n / 10) acc hdiv]
      have hd : isDigit (0x30 + n % 10) = true := by
        simp only [isDigit, Bool.and_eq_true, decide_eq_true_eq]
        have := Nat.mod_lt n (by omega : 0 < 10)
        omega
      simp only [Option.some_bind, digitsValueAux, if_pos hd]
      simp only [List.length_append, List.length_singleton, Option.some.injEq]
      have hmod : 10 * (n / 10) + n % 10 = n := Nat.div_add_mod n 10
      have hadd : 0x30 + n % 10 - 0x30 = n % 10 := by omega
      rw [hadd, pow_succ]
      ring_nf
      omega

theorem digitsValue_cons (b : Nat) (bs : List Nat) :
    digitsValue (b :: bs) = digitsValueAux 0 (b :: bs) := rfl

theorem digitsValue_natStr (n : Nat) : digitsValue (natStr n) = some n := by
  have key := digitsValueAux_natStrAux (n + 1) n 0 (Nat.lt_succ_self n)
  obtain ⟨x, xs, hx⟩ := List.exists_cons_of_ne_nil (natStr_ne_nil n)
  rw [natStr] at hx
  rw [natStr, hx, digitsValue_cons, ← hx, key]
  simp

theorem isDigit_bounds {b : Nat} (h : isDigit b = true) : 0x30 ≤ b ∧ b ≤ 0x39 := by
  simpa [isDigit] using h

theorem intStr_mem (i : Int) : ∀ b ∈ intStr i, b = 0x2D ∨ isDigit b = true := by
  intro b hb
  by_cases h : i < 0
  · rw [intStr, if_pos h] at hb
    rcases List.mem_cons.mp hb with h' | h'
    · exact Or.inl h'
    · exact Or.inr (natStr_digits _ _ h')
  · rw [intStr, if_neg h] at hb
    exact Or.inr (natStr_digits _ _ hb)

theorem intStr_zero : intStr 0 = [0x30] := rfl

theorem intStr_head_of_neg (i : Int) (h : i < 0) : intStr i = 0x2D :: natStr i.natAbs := by
  rw [intStr, if_pos h]

/-! ### Scanning, UTF-8 and parse round-trips -/

theorem scanTo_append (delim : Nat) :
    ∀ pre post, (∀ b ∈ pre, b ≠ delim) →
      scanTo delim (pre ++ delim :: post) = some (pre, post) := by
  intro pre
  induction pre with
  | nil => intro post h; simp [scanTo]
  | cons p ps ih =>
    intro post h
    have hp : p ≠ delim := h p (List.mem_cons_self p ps)
    rw [List.cons_append, scanTo, if_neg hp,
      ih post (fun b hb => h b (List.mem_cons_of_mem p hb))]

theorem validUtf8_of_ascii : ∀ l : List Nat, (∀ b ∈ l, b ≤ 0x7F) → validUtf8 l = true := by
  intro l
  induction l with
  | nil => intro _; rfl
  | cons b bs ih =>
    intro h
    rw [validUtf8, utf8Aux, if_pos rfl, if_pos (h b (List.mem_cons_self b bs))]
    exact ih fun x hx => h x (List.mem_cons_of_mem b hx)

theorem natStr_ascii (n : Nat) : ∀ b ∈ natStr n, b ≤ 0x7F := by
  intro b hb
  have := isDigit_bounds (natStr_digits n b hb)
  omega

theorem parseUsize_natStr (n : Nat) (h : n < 2 ^ 64) : parseUsize (natStr n) = some n := by
  obtain ⟨x, xs, hx⟩ := List.exists_cons_of_ne_nil (natStr_ne_nil n)
  have hxd := isDigit_bounds (natStr_digits n x (hx ▸ List.mem_cons_self x xs))
  have hxne : ¬ x = 0x2B := by omega
  rw [hx, parseUsize, if_neg hxne, ← hx, digitsValue_natStr]
  show (if n < 2 ^ 64 then some n else none) = some n
  rw [if_pos h]

theorem parseI64_intStr (i : Int) (hlo : -(2 ^ 63) ≤ i) (hhi : i < 2 ^ 63) :
    parseI64 (intStr i) = some i := by
  by_cases hneg : i < 0
  · rw [intStr_head_of_neg i hneg, parseI64, if_pos rfl, digitsValue_natStr]
    have hle : i.natAbs ≤ 2 ^ 63 := by omega
    show (if i.natAbs ≤ 2 ^ 63 then some (-(i.natAbs : Int)) else none) = some i
    rw [if_pos hle]
    congr 1
    omega
  · have h0 : intStr i = natStr i.toNat := by rw [intStr, if_neg hneg]
    obtain ⟨x, xs, hx⟩ := List.exists_cons_of_ne_nil (natStr_ne_nil i.toNat)
    have hxd := isDigit_bounds (natStr_digits i.toNat x (hx ▸ List.mem_cons_self x xs))
    have hx2D : ¬ x = 0x2D := by omega
    have hx2B : ¬ x = 0x2B := by omega
    rw [h0, hx, parseI64, if_neg hx2D, if_neg hx2B, ← hx, digitsValue_natStr]
    have hle : i.toNat ≤ 2 ^ 63 - 1 := by omega
    show (if i.toNat ≤ 2 ^ 63 - 1 then some ((i.toNat : Int)) else none) = some i
    rw [if_pos hle]
    congr 1
    omega

/-! ### The leaf productions decode their encodings -/

theorem decodeBytestring_encodeBytes (s : List Nat) (h : s.length < 2 ^ 64)
    (extra : List Nat) :
    decodeBytestring (encodeBytes s ++ extra) = .ok (.ByteString s, extra) := by
  have hassoc : encodeBytes s ++ extra = natStr s.length ++ 0x3A :: (s ++ extra) := by
    rw [encodeBytes, List.append_assoc, List.cons_append]
  have hscan : scanTo 0x3A (natStr s.length ++ 0x3A :: (s ++ extra)) =
      some (natStr s.length, s ++ extra) :=
    scanTo_append 0x3A (natStr s.length) (s ++ extra) fun b hb => by
      have := isDigit_bounds (natStr_digits s.length b hb)
      omega
  rw [hassoc, decodeBytestring, hscan]
  simp only [validUtf8_of_ascii (natStr s.length) (natStr_ascii s.length),
    parseUsize_natStr s.length h, if_true]
  have hle : s.length ≤ (s ++ extra).length := by
    simp [List.length_append]
  rw [if_pos hle, List.take_left, List.drop_left]

theorem decodeInteger_intStr (i : Int) (hlo : -(2 ^ 63) ≤ i) (hhi : i < 2 ^ 63)
    (extra : List Nat) :
    decodeInteger (intStr i ++ 0x65 :: extra) = .ok (.Integer i, extra) := by
  have hscan : scanTo 0x65 (intStr i ++ 0x65 :: extra) = some (intStr i, extra) :=
    scanTo_append 0x65 (intStr i) extra fun b hb => by
      rcases intStr_mem i b hb with h | h
      · omega
      · have := isDigit_bounds h
        omega
  have hutf : validUtf8 (intStr i) = true :=
    validUtf8_of_ascii _ fun b hb => by
      rcases intStr_mem i b hb with h | h
      · omega
      · have := isDigit_bounds h
        omega
  have hlz : ¬ (1 < (intStr i).length ∧ (intStr i).head? = some 0x30) := by
    rcases Int.lt_trichotomy i 0 with hneg | hzero | hpos
    · rw [intStr_head_of_neg i hneg]
      rintro ⟨-, hh⟩
      simp at hh
    · subst hzero
      rw [intStr_zero]
      rintro ⟨hl, -⟩
      simp at hl
    · rw [intStr, if_neg (by omega)]
      rintro ⟨-, hh⟩
      exact natStr_head_ne_zero i.toNat (by omega) hh
  have hm0 : ¬ intStr i = [0x2D, 0x30] := by
    rcases Int.lt_trichotomy i 0 with hneg | hzero | hpos
    · rw [intStr_head_of_neg i hneg]
      intro he
      have htl : natStr i.natAbs = [0x30] := by
        have := congrArg List.tail he
        simpa using this
      have : (natStr i.natAbs).head? ≠ some 0x30 :=
        natStr_head_ne_zero i.natAbs (by omega)
      rw [htl] at this
      simp at this
    · subst hzero
      rw [intStr_zero]
      simp
    · rw [intStr, if_neg (by omega)]
      intro he
      have hm : (0x2D : Nat) ∈ natStr i.toNat := by
        rw [he]
        exact List.mem_cons_self _ _
      have := isDigit_bounds (natStr_digits i.toNat _ hm)
      omega
  rw [decodeInteger, hscan]
  simp only [hutf, if_true, if_neg hlz, if_neg hm0, parseI64_intStr i hlo hhi]

/-! ### Sorted maps absorb in-order insertion -/

theorem btreeInsert_append_gt (k : List Nat) (v : BencodeType) :
    ∀ acc, (∀ p ∈ acc, bytesLt p.1 k = true) → btreeInsert k v acc = acc ++ [(k, v)] := by
  intro acc
  induction acc with
  | nil => intro _; rfl
  | cons p es ih =>
    intro h
    obtain ⟨k', v'⟩ := p
    have hlt : bytesLt k' k = true := h (k', v') (List.mem_cons_self _ _)
    have h1 : ¬ bytesLt k k' = true := by
      rw [bytesLt_asymm k' k hlt]
      simp
    have h2 : ¬ k = k' := by
      rintro rfl
      rw [bytesLt_irrefl] at hlt
      cases hlt
    rw [btreeInsert, if_neg h1, if_neg h2, ih fun q hq => h q (List.mem_cons_of_mem _ hq),
      List.cons_append]

theorem keysStrictlySorted_cons_iff (k : List Nat) (ks : List (List Nat)) :
    keysStrictlySorted (k :: ks) = true ↔
      (∀ k' ∈ ks, bytesLt k k' = true) ∧ keysStrictlySorted ks = true := by
  rw [keysStrictlySorted_iff_pairwise, keysStrictlySorted_iff_pairwise, List.pairwise_cons]
  exact Iff.rfl

theorem btreeInsertAll_cons (acc : List (List Nat × BencodeType)) (k : List Nat)
    (v : BencodeType) (es : List (List Nat × BencodeType)) :
    btreeInsertAll acc ((k, v) :: es) = btreeInsertAll (btreeInsert k v acc) es := rfl

theorem btreeInsertAll_sorted_eq :
    ∀ (es acc : List (List Nat × BencodeType)),
      keysStrictlySorted (es.map Prod.fst) = true →
      (∀ p ∈ acc, ∀ q ∈ es, bytesLt p.1 q.1 = true) →
      btreeInsertAll acc es = acc ++ es := by
  intro es
  induction es with
  | nil => intro acc _ _; simp [btreeInsertAll]
  | cons p es' ih =>
    intro acc hsort hacc
    obtain ⟨k, v⟩ := p
    simp only [List.map_cons] at hsort
    rw [keysStrictlySorted_cons_iff] at hsort
    rw [btreeInsertAll_cons,
      btreeInsert_append_gt k v acc fun q hq => hacc q hq (k, v) (List.mem_cons_self _ _)]
    rw [ih (acc ++ [(k, v)]) hsort.2 ?later]
    · simp
    case later =>
      intro q hq r hr
      rcases List.mem_append.mp hq with hq' | hq'
      · exact hacc q hq' r (List.mem_cons_of_mem _ hr)
      · simp only [List.mem_singleton] at hq'
        subst hq'
        exact hsort.1 r.1 (List.mem_map_of_mem Prod.fst hr)

theorem btreeInsertAll_nil_sorted (es : List (List Nat × BencodeType))
    (h : keysStrictlySorted (es.map Prod.fst) = true) :
    btreeInsertAll [] es = es := by
  rw [btreeInsertAll_sorted_eq es [] h (by simp), List.nil_append]

/-! ### Every encoding starts with a dispatchable byte -/

theorem encode_head (v : BencodeType) :
    ∃ c cs, encode v = c :: cs ∧
      (0x30 ≤ c ∧ c ≤ 0x39 ∨ c = 0x69 ∨ c = 0x6C ∨ c = 0x64) := by
  cases v with
  | ByteString s =>
    obtain ⟨x, xs, hx⟩ := List.exists_cons_of_ne_nil (natStr_ne_nil s.length)
    refine ⟨x, xs ++ 0x3A :: s, ?_, Or.inl ?_⟩
    · simp only [encode, encodeBytes, hx, List.cons_append]
    · exact isDigit_bounds (natStr_digits _ x (hx ▸ List.mem_cons_self x xs))
  | Integer i => exact ⟨0x69, intStr i ++ [0x65], by simp only [encode, List.cons_append], by omega⟩
  | List vs => exact ⟨0x6C, encodeList vs ++ [0x65], by simp only [encode, List.cons_append], by omega⟩
  | Dictionary es =>
    exact ⟨0x64, encodeEntries es ++ [0x65], by simp only [encode, List.cons_append], by omega⟩

theorem encode_length_pos (v : BencodeType) : 1 ≤ (encode v).length := by
  obtain ⟨c, cs, hc, -⟩ := encode_head v
  rw [hc]
  simp

/-! ### The decoder inverts the encoder -/

theorem decodeListF_step (fuel : Nat) (input : List Nat) (acc : List BencodeType)
    (hhead : ¬ input.head? = some 0x65) (v : BencodeType) (rest' : List Nat)
    (hdec : decodeF fuel input = .ok (v, rest')) (hne : rest' ≠ []) :
    decodeListF (fuel + 1) input acc = decodeListF fuel rest' (acc ++ [v]) := by
  rw [decodeListF, if_neg hhead, hdec]
  show (if rest' = [] then DecodeResult.err DecodeError.UnexpectedEndOfInput
      else decodeListF fuel rest' (acc ++ [v])) = decodeListF fuel rest' (acc ++ [v])
  rw [if_neg hne]

theorem decodeDictF_step (fuel : Nat) (input : List Nat)
    (acc : List (List Nat × BencodeType)) (hhead : ¬ input.head? = some 0x65)
    (k : List Nat) (rest1 : List Nat)
    (hkdec : decodeBytestring input = .ok (.ByteString k, rest1))
    (v : BencodeType) (rest2 : List Nat)
    (hdec : decodeF fuel rest1 = .ok (v, rest2)) (hne : rest2 ≠ []) :
    decodeDictF (fuel + 1) input acc = decodeDictF fuel rest2 (btreeInsert k v acc) := by
  rw [decodeDictF, if_neg hhead, hkdec]
  show (match decodeF fuel rest1 with
      | .ok (v, rest2) =>
        if rest2 = [] then DecodeResult.err DecodeError.UnexpectedEndOfInput
        else decodeDictF fuel rest2 (btreeInsert k v acc)
      | .err e => DecodeResult.err e
      | .panic => DecodeResult.panic) = decodeDictF fuel rest2 (btreeInsert k v acc)
  rw [hdec]
  show (if rest2 = [] then DecodeResult.err DecodeError.UnexpectedEndOfInput
      else decodeDictF fuel rest2 (btreeInsert k v acc)) =
    decodeDictF fuel rest2 (btreeInsert k v acc)
  rw [if_neg hne]

mutual
theorem decodeF_enc : ∀ (v : BencodeType) (extra : List Nat) (fuel : Nat),
    wellFormed v = true → (encode v).length < fuel →
    decodeF fuel (encode v ++ extra) = .ok (v, extra)
  | .ByteString s, extra, fuel, hwf, hfuel => by
    cases fuel with
    | zero => omega
    | succ f =>
      simp only [wellFormed, decide_eq_true_eq] at hwf
      obtain ⟨x, xs, hx⟩ := List.exists_cons_of_ne_nil (natStr_ne_nil s.length)
      have hxd := isDigit_bounds (natStr_digits s.length x (hx ▸ List.mem_cons_self x xs))
      have hdig : isDigit x = true := natStr_digits s.length x (hx ▸ List.mem_cons_self x xs)
      have hshape : encode (.ByteString s) ++ extra = x :: (xs ++ 0x3A :: s ++ extra) := by
        simp only [encode, encodeBytes, hx, List.cons_append, List.append_assoc]
      rw [hshape, decodeF, if_neg (by omega), if_neg (by omega), if_neg (by omega),
        if_pos hdig, ← List.cons_append, ← List.cons_append, ← hx]
      have hbs := decodeBytestring_encodeBytes s hwf extra
      rw [encodeBytes] at hbs
      exact hbs
  | .Integer i, extra, fuel, hwf, hfuel => by
    cases fuel with
    | zero => omega
    | succ f =>
      simp only [wellFormed, decide_eq_true_eq] at hwf
      have hshape : encode (.Integer i) ++ extra = 0x69 :: (intStr i ++ 0x65 :: extra) := by
        simp only [encode, List.cons_append, List.append_assoc, List.singleton_append,
          List.nil_append]
      rw [hshape, decodeF, if_pos rfl]
      exact decodeInteger_intStr i hwf.1 hwf.2 extra
  | .List vs, extra, fuel, hwf, hfuel => by
    cases fuel with
    | zero => omega
    | succ f =>
      simp only [wellFormed] at hwf
      simp only [encode, List.length_cons, List.length_append,
        List.length_singleton] at hfuel
      have hshape : encode (.List vs) ++ extra = 0x6C :: (encodeList vs ++ 0x65 :: extra) := by
        simp only [encode, List.cons_append, List.append_assoc, List.singleton_append,
          List.nil_append]
      rw [hshape, decodeF, if_neg (by omega), if_pos rfl,
        decodeListF_enc vs [] extra f hwf (by omega), List.nil_append]
  | .Dictionary es, extra, fuel, hwf, hfuel => by
    cases fuel with
    | zero => omega
    | succ f =>
      simp only [wellFormed, Bool.and_eq_true] at hwf
      simp only [encode, List.length_cons, List.length_append,
        List.length_singleton] at hfuel
      have hshape : encode (.Dictionary es) ++ extra =
          0x64 :: (encodeEntries es ++ 0x65 :: extra) := by
        simp only [encode, List.cons_append, List.append_assoc, List.singleton_append,
          List.nil_append]
      rw [hshape, decodeF, if_neg (by omega), if_neg (by omega), if_pos rfl,
        decodeDictF_enc es [] extra f hwf.2 (by omega),
        btreeInsertAll_nil_sorted es hwf.1]
termination_by v => sizeOf v

theorem decodeListF_enc : ∀ (vs : List BencodeType) (acc : List BencodeType)
    (extra : List Nat) (fuel : Nat), wellFormedList vs = true →
    (encodeList vs).length + 1 < fuel →
    decodeListF fuel (encodeList vs ++ 0x65 :: extra) acc = .ok (.List (acc ++ vs), extra)
  | [], acc, extra, fuel, hwf, hfuel => by
    cases fuel with
    | zero => omega
    | succ f =>
      rw [encodeList, List.nil_append, decodeListF, if_pos (by simp)]
      simp
  | v :: vs', acc, extra, fuel, hwf, hfuel => by
    cases fuel with
    | zero => omega
    | succ f =>
      simp only [wellFormedList, Bool.and_eq_true] at hwf
      simp only [encodeList, List.length_append] at hfuel
      obtain ⟨c, cs, hc, hcr⟩ := encode_head v
      have hvpos : 1 ≤ (encode v).length := encode_length_pos v
      have hhead : ¬ ((encodeList (v :: vs') ++ 0x65 :: extra).head? = some 0x65) := by
        simp only [encodeList, hc, List.cons_append, List.head?_cons, Option.some.injEq]
        omega
      have hdec : decodeF f (encodeList (v :: vs') ++ 0x65 :: extra) =
          .ok (v, encodeList vs' ++ 0x65 :: extra) := by
        have h1 := decodeF_enc v (encodeList vs' ++ 0x65 :: extra) f hwf.1 (by omega)
        rw [← h1]
        congr 1
        simp only [encodeList, List.append_assoc]
      rw [decodeListF_step f _ acc hhead v _ hdec (by simp),
        decodeListF_enc vs' (acc ++ [v]) extra f hwf.2 (by omega)]
      simp
termination_by vs => sizeOf vs

theorem decodeDictF_enc : ∀ (es : List (List Nat × BencodeType))
    (acc : List (List Nat × BencodeType)) (extra : List Nat) (fuel : Nat),
    wellFormedEntries es = true → (encodeEntries es).length + 1 < fuel →
    decodeDictF fuel (encodeEntries es ++ 0x65 :: extra) acc =
      .ok (.Dictionary (btreeInsertAll acc es), extra)
  | [], acc, extra, fuel, hwf, hfuel => by
    cases fuel with
    | zero => omega
    | succ f =>
      rw [encodeEntries, List.nil_append, decodeDictF, if_pos (by simp)]
      simp [btreeInsertAll]
  | (k, v) :: es', acc, extra, fuel, hwf, hfuel => by
    cases fuel with
    | zero => omega
    | succ f =>
      simp only [wellFormedEntries, Bool.and_eq_true, decide_eq_true_eq] at hwf
      obtain ⟨⟨hk, hv⟩, hes⟩ := hwf
      simp only [encodeEntries, List.length_append] at hfuel
      obtain ⟨x, xs, hx⟩ := List.exists_cons_of_ne_nil (natStr_ne_nil k.length)
      have hxd := isDigit_bounds (natStr_digits k.length x (hx ▸ List.mem_cons_self x xs))
      have hkpos : 1 ≤ (encodeBytes k).length := by
        rw [encodeBytes, hx]
        simp
      have hvpos : 1 ≤ (encode v).length := encode_length_pos v
      have hhead : ¬ ((encodeEntries ((k, v) :: es') ++ 0x65 :: extra).head? = some 0x65) := by
        simp only [encodeEntries, encodeBytes, hx, List.cons_append, List.append_assoc,
          List.head?_cons, Option.some.injEq]
        omega
      have hkdec : decodeBytestring (encodeEntries ((k, v) :: es') ++ 0x65 :: extra) =
          .ok (.ByteString k, encode v ++ (encodeEntries es' ++ 0x65 :: extra)) := by
        have h1 := decodeBytestring_encodeBytes k hk
          (encode v ++ (encodeEntries es' ++ 0x65 :: extra))
        rw [← h1]
        congr 1
        simp only [encodeEntries, List.append_assoc]
      have hdec := decodeF_enc v (encodeEntries es' ++ 0x65 :: extra) f hv (by omega)
      rw [decodeDictF_step f _ acc hhead k _ hkdec v _ hdec (by simp),
        decodeDictF_enc es' (btreeInsert k v acc) extra f hes (by omega),
        btreeInsertAll_cons]
termination_by es => sizeOf es
end

/-- `decode(encode(v)) = v`, with the whole buffer consumed: instance of
the fueled lemma at the fuel `decode` uses. -/
theorem decode_encode_of_wellFormed (v : BencodeType) (hwf : wellFormed v = true) :
    decode (encode v) = .ok (v, []) := by
  have h := decodeF_enc v [] (2 * (encode v).length + 2) hwf (by omega)
  rw [List.append_nil] at h
  rw [decode]
  exact h

/-- Following the spec glossary — "canonical form: the unique byte
encoding produced by the encoder, notably with dictionary keys in
ascending byte order" — a buffer in canonical form is one that the
encoder produces from some (well-formed) value. -/
def CanonicalForm (b : List Nat) : Prop :=
  ∃ v : BencodeType, wellFormed v = true ∧ encode v = b

/-! ### `BTreeMap` lookup/insert laws -/

theorem btreeGet_insert_self (k : List Nat) (v : BencodeType) :
    ∀ m, btreeGet k (btreeInsert k v m) = some v
  | [] => by rw [btreeInsert, btreeGet, if_pos rfl]
  | (k', v') :: es => by
    rw [btreeInsert]
    by_cases h1 : bytesLt k k' = true
    · rw [if_pos h1, btreeGet, if_pos rfl]
    · rw [if_neg h1]
      by_cases h2 : k = k'
      · rw [if_pos h2, btreeGet, if_pos rfl]
      · rw [if_neg h2, btreeGet, if_neg h2, btreeGet_insert_self k v es]

theorem btreeGet_insert_ne (k : List Nat) (v : BencodeType) (j : List Nat)
    (hne : j ≠ k) : ∀ m, btreeGet j (btreeInsert k v m) = btreeGet j m
  | [] => by simp [btreeInsert, btreeGet, hne]
  | (k', v') :: es => by
    rw [btreeInsert]
    by_cases h1 : bytesLt k k' = true
    · rw [if_pos h1, btreeGet, if_neg hne]
    · rw [if_neg h1]
      by_cases h2 : k = k'
      · subst h2
        rw [if_pos rfl, btreeGet, if_neg hne, btreeGet, if_neg hne]
      · rw [if_neg h2, btreeGet, btreeGet]
        by_cases h3 : j = k'
        · rw [if_pos h3, if_pos h3]
        · rw [if_neg h3, if_neg h3, btreeGet_insert_ne k v j hne es]

/-- Lookup after a sequence of inserts: the value of the last inserted
occurrence of the key wins (and keys never inserted fall back to the
initial map). -/
theorem btreeGet_insertAll (j : List Nat) :
    ∀ (ps acc : List (List Nat × BencodeType)),
      btreeGet j (btreeInsertAll acc ps) =
        (match ps.reverse.find? (fun q => decide (q.1 = j)) with
          | some q => some q.2
          | none => btreeGet j acc)
  | [], acc => by simp [btreeInsertAll]
  | (k, v) :: ps', acc => by
    rw [btreeInsertAll_cons, btreeGet_insertAll j ps' (btreeInsert k v acc),
      List.reverse_cons, List.find?_append]
    cases hf : ps'.reverse.find? (fun q => decide (q.1 = j)) with
    | some q => rw [Option.or_some]
    | none =>
      rw [Option.none_or]
      by_cases hj : j = k
      · subst hj
        rw [btreeGet_insert_self]
        simp [List.find?]
      · rw [btreeGet_insert_ne k v j hj acc]
        have hfind : (List.find? (fun q => decide (q.1 = j)) [(k, v)]) = none := by
          rw [List.find?_eq_none]
          intro x hx
          simp only [List.mem_singleton] at hx
          subst hx
          simp only [decide_eq_true_eq]
          exact fun h => hj h.symm
        rw [hfind]

theorem btreeGet_eq_none_of_all_gt (j : List Nat) :
    ∀ m : List (List Nat × BencodeType),
      (∀ p ∈ m, bytesLt j p.1 = true) → btreeGet j m = none
  | [] => fun _ => rfl
  | (k, v) :: es => by
    intro h
    have hlt := h (k, v) (List.mem_cons_self _ _)
    have hne : ¬ j = k := by
      rintro rfl
      rw [bytesLt_irrefl] at hlt
      cases hlt
    rw [btreeGet, if_neg hne]
    exact btreeGet_eq_none_of_all_gt j es fun p hp => h p (List.mem_cons_of_mem _ hp)

/-- Sorted-map extensionality: two strictly-sorted entry lists with the
same lookup function are equal. -/
theorem btreeMap_ext :
    ∀ m1 m2 : List (List Nat × BencodeType),
      (m1.map Prod.fst).Pairwise BytesLt → (m2.map Prod.fst).Pairwise BytesLt →
      (∀ j, btreeGet j m1 = btreeGet j m2) → m1 = m2
  | [], [], _, _, _ => rfl
  | [], (k2, v2) :: es2, _, _, h => by
    have := h k2
    rw [btreeGet, btreeGet, if_pos rfl] at this
    cases this
  | (k1, v1) :: es1, [], _, _, h => by
    have := h k1
    rw [btreeGet, btreeGet, if_pos rfl] at this
    cases this
  | (k1, v1) :: es1, (k2, v2) :: es2, hp1, hp2, h => by
    simp only [List.map_cons, List.pairwise_cons] at hp1 hp2
    have hk : k1 = k2 := by
      rcases bytesLt_total k1 k2 with hlt | heq | hgt
      · exfalso
        have h1 := h k1
        rw [btreeGet, if_pos rfl, btreeGet,
          if_neg (by rintro rfl; rw [bytesLt_irrefl] at hlt; cases hlt)] at h1
        rw [btreeGet_eq_none_of_all_gt k1 es2] at h1
        · cases h1
        · intro p hp
          exact bytesLt_trans k1 k2 p.1 hlt (hp2.1 p.1 (List.mem_map_of_mem Prod.fst hp))
      · exact heq
      · exfalso
        have h1 := h k2
        rw [btreeGet, btreeGet, if_pos rfl,
          if_neg (by rintro rfl; rw [bytesLt_irrefl] at hgt; cases hgt)] at h1
        rw [btreeGet_eq_none_of_all_gt k2 es1] at h1
        · cases h1
        · intro p hp
          exact bytesLt_trans k2 k1 p.1 hgt (hp1.1 p.1 (List.mem_map_of_mem Prod.fst hp))
    subst hk
    have hv : v1 = v2 := by
      have h1 := h k1
      rw [btreeGet, if_pos rfl, btreeGet, if_pos rfl] at h1
      exact Option.some.inj h1
    subst hv
    have htail : ∀ j, btreeGet j es1 = btreeGet j es2 := by
      intro j
      by_cases hj : j = k1
      · subst hj
        rw [btreeGet_eq_none_of_all_gt j es1 fun p hp =>
            hp1.1 p.1 (List.mem_map_of_mem Prod.fst hp),
          btreeGet_eq_none_of_all_gt j es2 fun p hp =>
            hp2.1 p.1 (List.mem_map_of_mem Prod.fst hp)]
      · have h1 := h j
        rw [btreeGet, if_neg hj, btreeGet, if_neg hj] at h1
        exact h1
    rw [btreeMap_ext es1 es2 hp1.2 hp2.2 htail]

theorem btreeInsert_keys_subset (k : List Nat) (v : BencodeType) :
    ∀ m, ∀ a ∈ (btreeInsert k v m).map Prod.fst, a ∈ k :: m.map Prod.fst
  | [] => by
    intro a ha
    simp only [btreeInsert, List.map_cons, List.map_nil] at ha
    simpa using ha
  | (k', v') :: es => by
    intro a ha
    rw [btreeInsert] at ha
    by_cases h1 : bytesLt k k' = true
    · rw [if_pos h1] at ha
      simpa using ha
    · rw [if_neg h1] at ha
      by_cases h2 : k = k'
      · rw [if_pos h2] at ha
        simp only [List.map_cons, List.mem_cons] at ha ⊢
        tauto
      · rw [if_neg h2] at ha
        simp only [List.map_cons, List.mem_cons] at ha ⊢
        rcases ha with ha | ha
        · tauto
        · have := btreeInsert_keys_subset k v es a ha
          simp only [List.mem_cons] at this
          tauto

theorem btreeInsert_keys_pairwise (k : List Nat) (v : BencodeType) :
    ∀ m, (m.map Prod.fst).Pairwise BytesLt →
      ((btreeInsert k v m).map Prod.fst).Pairwise BytesLt
  | [] => by
    intro _
    simp [btreeInsert]
  | (k', v') :: es => by
    intro hp
    simp only [List.map_cons, List.pairwise_cons] at hp
    rw [btreeInsert]
    by_cases h1 : bytesLt k k' = true
    · rw [if_pos h1]
      simp only [List.map_cons, List.pairwise_cons]
      refine ⟨?_, hp.1, hp.2⟩
      intro a ha
      simp only [List.mem_cons] at ha
      rcases ha with rfl | ha
      · exact h1
      · exact bytesLt_trans k k' a h1 (hp.1 a ha)
    · rw [if_neg h1]
      by_cases h2 : k = k'
      · subst h2
        rw [if_pos rfl]
        simp only [List.map_cons, List.pairwise_cons]
        exact hp
      · rw [if_neg h2]
        simp only [List.map_cons, List.pairwise_cons]
        constructor
        · intro a ha
          have := btreeInsert_keys_subset k v es a ha
          simp only [List.mem_cons] at this
          rcases this with rfl | hmem
          · exact bytesLt_of_not a k' h2 (by simpa using h1)
          · exact hp.1 a hmem
        · exact btreeInsert_keys_pairwise k v es hp.2

theorem btreeInsertAll_keys_pairwise :
    ∀ (ps acc : List (List Nat × BencodeType)),
      (acc.map Prod.fst).Pairwise BytesLt →
      ((btreeInsertAll acc ps).map Prod.fst).Pairwise BytesLt
  | [], acc => fun h => h
  | (k, v) :: ps', acc => by
    intro h
    rw [btreeInsertAll_cons]
    exact btreeInsertAll_keys_pairwise ps' (btreeInsert k v acc)
      (btreeInsert_keys_pairwise k v acc h)

/-- `find?` returns the unique element satisfying the predicate. -/
theorem find?_of_unique {α : Type} (p : α → Bool) :
    ∀ (l : List α) (q : α), q ∈ l → p q = true →
      (∀ r ∈ l, p r = true → r = q) → l.find? p = some q
  | [], q, hq, _, _ => absurd hq (List.not_mem_nil q)
  | x :: xs, q, hq, hpq, huniq => by
    cases hx : p x with
    | true =>
      rw [List.find?_cons_of_pos _ hx, huniq x (List.mem_cons_self _ _) hx]
    | false =>
      rw [List.find?_cons_of_neg _ (by simp [hx])]
      rcases List.mem_cons.mp hq with rfl | hq'
      · rw [hpq] at hx
        cases hx
      · exact find?_of_unique p xs q hq' hpq fun r hr hpr =>
          huniq r (List.mem_cons_of_mem _ hr) hpr

/-- Building a map from the same set of pairs (distinct keys) in any
insertion order yields the same map. -/
theorem btreeInsertAll_perm (ps qs : List (List Nat × BencodeType))
    (hperm : ps.Perm qs) (hnodup : (ps.map Prod.fst).Nodup) :
    btreeInsertAll [] ps = btreeInsertAll [] qs := by
  have hnodup' : (qs.map Prod.fst).Nodup := ((hperm.map Prod.fst).nodup_iff).mp hnodup
  apply btreeMap_ext _ _ (btreeInsertAll_keys_pairwise ps [] (by simp))
    (btreeInsertAll_keys_pairwise qs [] (by simp))
  intro j
  rw [btreeGet_insertAll j ps [], btreeGet_insertAll j qs []]
  by_cases hex : ∃ q ∈ ps, q.1 = j
  · obtain ⟨q, hq, hqj⟩ := hex
    have huniqp : ∀ r ∈ ps.reverse, decide (r.1 = j) = true → r = q := by
      intro r hr hpr
      simp only [decide_eq_true_eq] at hpr
      exact List.inj_on_of_nodup_map hnodup (List.mem_reverse.mp hr) hq (hpr.trans hqj.symm)
    have huniqq : ∀ r ∈ qs.reverse, decide (r.1 = j) = true → r = q := by
      intro r hr hpr
      simp only [decide_eq_true_eq] at hpr
      exact List.inj_on_of_nodup_map hnodup' (List.mem_reverse.mp hr)
        (hperm.mem_iff.mp hq) (hpr.trans hqj.symm)
    rw [find?_of_unique _ ps.reverse q (List.mem_reverse.mpr hq)
        (by simp [hqj]) huniqp,
      find?_of_unique _ qs.reverse q (List.mem_reverse.mpr (hperm.mem_iff.mp hq))
        (by simp [hqj]) huniqq]
  · have hnone : ∀ (l : List (List Nat × BencodeType)), (∀ r ∈ l, ¬ r.1 = j) →
        l.find? (fun q => decide (q.1 = j)) = none := by
      intro l hl
      rw [List.find?_eq_none]
      intro x hx
      simp only [decide_eq_true_eq]
      exact hl x hx
    rw [hnone ps.reverse fun r hr he =>
        hex ⟨r, List.mem_reverse.mp hr, he⟩,
      hnone qs.reverse fun r hr he =>
        hex ⟨r, hperm.mem_iff.mpr (List.mem_reverse.mp hr), he⟩]

/-- The dictionary encoding is the concatenation, entry by entry in
stored order, of key encoding then value encoding. -/
theorem encodeEntries_eq_flatten :
    ∀ es : List (List Nat × BencodeType),
      encodeEntries es = (es.map fun p => encodeBytes p.1 ++ encode p.2).flatten
  | [] => rfl
  | (k, v) :: es => by
    rw [encodeEntries, encodeEntries_eq_flatten es, List.map_cons, List.flatten_cons,
      List.append_assoc]

/-! ### Dispatch and integer-production helpers -/

/-- `decode` on a buffer starting with `i` runs `decode_integer` on the
rest (the fuel is positive and `decode_integer` uses none). -/
theorem decode_cons_i (rest : List Nat) : decode (0x69 :: rest) = decodeInteger rest := by
  rw [decode]
  have hlen : 2 * (0x69 :: rest).length + 2 = (2 * rest.length + 3) + 1 := by
    simp only [List.length_cons]
    omega
  rw [hlen, decodeF, if_pos rfl]

/-- `decode_integer` on a span followed by the terminating `e`: scan,
UTF-8 check, leading-zero check, `-0` check, `parse::<i64>`. -/
theorem decodeInteger_span (span rest : List Nat) (hnoE : ¬ (0x65 : Nat) ∈ span) :
    decodeInteger (span ++ 0x65 :: rest) =
      (if validUtf8 span then
        if 1 < span.length ∧ span.head? = some 0x30 then .err .InvalidInteger
        else if span = [0x2D, 0x30] then .err .InvalidInteger
        else
          match parseI64 span with
          | none => .err .InvalidInteger
          | some n => .ok (.Integer n, rest)
      else .err .InvalidUtf8) := by
  have hscan := scanTo_append 0x65 span rest fun b hb => by
    rintro rfl
    exact hnoE hb
  rw [decodeInteger, hscan]

/-! ## The claims -/

/-- Claim C1: for every well-formed value `v` of the four-variant value
tree (byte strings, 64-bit integers, lists, dictionaries with sorted
unique keys), decoding the buffer produced by encoding `v` yields
exactly `v`, consuming the whole buffer:
`decode(encode(v)) == v`. -/
theorem claim1_decode_encode_roundtrip (v : BencodeType) (hwf : wellFormed v = true) :
    decode (encode v) = .ok (v, []) :=
  decode_encode_of_wellFormed v hwf

/-- Witness for C1 at a concrete nested value (a dictionary holding a
list and an extreme 64-bit integer). -/
theorem claim1_witness :
    wellFormed (.Dictionary [([0x61], .List [.Integer (-3), .ByteString [0xFF, 0x00]]),
      ([0x62], .Integer 9223372036854775807)]) = true
    ∧ decode (encode (.Dictionary [([0x61], .List [.Integer (-3), .ByteString [0xFF, 0x00]]),
        ([0x62], .Integer 9223372036854775807)])) =
      .ok (.Dictionary [([0x61], .List [.Integer (-3), .ByteString [0xFF, 0x00]]),
        ([0x62], .Integer 9223372036854775807)], []) :=
  ⟨by decide,
    claim1_decode_encode_roundtrip
      (.Dictionary [([0x61], .List [.Integer (-3), .ByteString [0xFF, 0x00]]),
        ([0x62], .Integer 9223372036854775807)]) (by decide)⟩

/-- Claim C2: every byte buffer in canonical form (i.e. a buffer the
encoder produces from some well-formed value) that `decode` parses in
full to a value `v` re-encodes to the original bytes:
`encode(v) == b`. -/
theorem claim2_encode_decode_roundtrip (b : List Nat) (v : BencodeType)
    (hcanon : CanonicalForm b) (hdec : decode b = .ok (v, [])) : encode v = b := by
  obtain ⟨w, hwf, henc⟩ := hcanon
  subst henc
  rw [decode_encode_of_wellFormed w hwf] at hdec
  injection hdec with h1
  injection h1 with h2 h3
  rw [← h2]

/-- Witness for C2 at the canonical buffer `i3e`. -/
theorem claim2_witness :
    CanonicalForm [0x69, 0x33, 0x65]
    ∧ decode [0x69, 0x33, 0x65] = .ok (.Integer 3, [])
    ∧ encode (.Integer 3) = [0x69, 0x33, 0x65] :=
  ⟨⟨.Integer 3, by decide, rfl⟩, rfl,
    claim2_encode_decode_roundtrip [0x69, 0x33, 0x65] (.Integer 3)
      ⟨.Integer 3, by decide, rfl⟩ rfl⟩

/-- Claim C3 (code bug): the spec requires a byte-string production
whose declared length exceeds the bytes remaining after the colon to
fail cleanly with `UnexpectedEndOfInput`; the code instead slices
`input[string_start..cursor]` with `cursor` past the end of the buffer,
which panics.  On `4:spa` the decoder panics. -/
theorem claim3_bytestring_overrun_panics :
    decode [0x34, 0x3A, 0x73, 0x70, 0x61] = .panic := rfl

/-- Claim C4 (code bug): the spec requires `UnexpectedEndOfInput` when a
value is needed at or past the end of the buffer; `decode` instead
indexes `self.input[self.cursor]` without a bounds check, which panics
on the empty buffer, and the list loop re-enters `decode` on an
exhausted buffer, so the one-byte input `l` panics too. -/
theorem claim4_eof_panics :
    decode [] = .panic ∧ decode [0x6C] = .panic := ⟨rfl, rfl⟩

/-- Claim C5: the encoder emits `d`, then for each entry in strictly
ascending byte-lexicographic key order the key's byte-string encoding
followed by the value's encoding, then `e`; and two dictionaries built
by inserting the same key/value pairs (distinct keys) in any two orders
encode to identical bytes — in particular inserting `"spam" ↦ "eggs"`
then `"cow" ↦ "moo"`, or the other way round, both encode to
`d3:cow3:moo4:spam4:eggse`. -/
theorem claim5_dictionary_canonical_order (es ps qs : List (List Nat × BencodeType))
    (hwf : wellFormed (.Dictionary es) = true) (hperm : ps.Perm qs)
    (hnodup : (ps.map Prod.fst).Nodup) :
    encode (.Dictionary es) =
      0x64 :: (es.map fun p => encodeBytes p.1 ++ encode p.2).flatten ++ [0x65]
    ∧ keysStrictlySorted (es.map Prod.fst) = true
    ∧ encode (.Dictionary (btreeInsertAll [] ps)) =
        encode (.Dictionary (btreeInsertAll [] qs))
    ∧ encode (.Dictionary (btreeInsertAll []
        [([0x73, 0x70, 0x61, 0x6D], .ByteString [0x65, 0x67, 0x67, 0x73]),
         ([0x63, 0x6F, 0x77], .ByteString [0x6D, 0x6F, 0x6F])])) =
      [0x64, 0x33, 0x3A, 0x63, 0x6F, 0x77, 0x33, 0x3A, 0x6D, 0x6F, 0x6F, 0x34, 0x3A,
       0x73, 0x70, 0x61, 0x6D, 0x34, 0x3A, 0x65, 0x67, 0x67, 0x73, 0x65]
    ∧ encode (.Dictionary (btreeInsertAll []
        [([0x63, 0x6F, 0x77], .ByteString [0x6D, 0x6F, 0x6F]),
         ([0x73, 0x70, 0x61, 0x6D], .ByteString [0x65, 0x67, 0x67, 0x73])])) =
      [0x64, 0x33, 0x3A, 0x63, 0x6F, 0x77, 0x33, 0x3A, 0x6D, 0x6F, 0x6F, 0x34, 0x3A,
       0x73, 0x70, 0x61, 0x6D, 0x34, 0x3A, 0x65, 0x67, 0x67, 0x73, 0x65] := by
  refine ⟨?_, ?_, ?_, rfl, rfl⟩
  · simp only [encode, encodeEntries_eq_flatten]
  · simp only [wellFormed, Bool.and_eq_true] at hwf
    exact hwf.1
  · rw [btreeInsertAll_perm ps qs hperm hnodup]

/-- Witness for C5 at the `cow`/`moo`, `spam`/`eggs` dictionary of the
spec, inserted in the two possible orders. -/
theorem claim5_witness :
    encode (.Dictionary [([0x63, 0x6F, 0x77], .ByteString [0x6D, 0x6F, 0x6F]),
      ([0x73, 0x70, 0x61, 0x6D], .ByteString [0x65, 0x67, 0x67, 0x73])]) =
      0x64 :: ([([0x63, 0x6F, 0x77], BencodeType.ByteString [0x6D, 0x6F, 0x6F]),
        ([0x73, 0x70, 0x61, 0x6D], BencodeType.ByteString [0x65, 0x67, 0x67, 0x73])].map
          fun p => encodeBytes p.1 ++ encode p.2).flatten ++ [0x65]
    ∧ encode (.Dictionary (btreeInsertAll []
        [([0x73, 0x70, 0x61, 0x6D], .ByteString [0x65, 0x67, 0x67, 0x73]),
         ([0x63, 0x6F, 0x77], .ByteString [0x6D, 0x6F, 0x6F])])) =
      encode (.Dictionary (btreeInsertAll []
        [([0x63, 0x6F, 0x77], .ByteString [0x6D, 0x6F, 0x6F]),
         ([0x73, 0x70, 0x61, 0x6D], .ByteString [0x65, 0x67, 0x67, 0x73])])) := by
  have h := claim5_dictionary_canonical_order
    [([0x63, 0x6F, 0x77], .ByteString [0x6D, 0x6F, 0x6F]),
     ([0x73, 0x70, 0x61, 0x6D], .ByteString [0x65, 0x67, 0x67, 0x73])]
    [([0x73, 0x70, 0x61, 0x6D], .ByteString [0x65, 0x67, 0x67, 0x73]),
     ([0x63, 0x6F, 0x77], .ByteString [0x6D, 0x6F, 0x6F])]
    [([0x63, 0x6F, 0x77], .ByteString [0x6D, 0x6F, 0x6F]),
     ([0x73, 0x70, 0x61, 0x6D], .ByteString [0x65, 0x67, 0x67, 0x73])]
    (by decide) (List.Perm.swap _ _ _) (by decide)
  exact ⟨h.1, h.2.2.1⟩

/-- Counterexample to C6 as frozen: on the integer production
`i0\xFFe` the span `[0x30, 0xFF]` has length 2 and begins with `0`, but
`from_utf8` runs before the leading-zero check, so decoding fails with
`InvalidUtf8`, not `InvalidInteger`. -/
theorem claim6_counterexample :
    decode [0x69, 0x30, 0xFF, 0x65] = .err .InvalidUtf8
    ∧ ¬ decode [0x69, 0x30, 0xFF, 0x65] = .err .InvalidInteger := by
  refine ⟨rfl, ?_⟩
  intro h
  rw [show decode [0x69, 0x30, 0xFF, 0x65] = .err .InvalidUtf8 from rfl] at h
  injection h with h1
  cases h1

/-- Claim C6 (amended): for every integer production `i<span>e` whose
span is valid UTF-8, a span of length > 1 beginning with `0`, or the
literal span `-0`, fails with `InvalidInteger` (a span that is not
valid UTF-8 fails with `InvalidUtf8` instead); `i0e` decodes to the
integer 0 and `i-3e` decodes to the integer -3. -/
theorem claim6_integer_edge_cases (span rest : List Nat)
    (hnoE : ¬ (0x65 : Nat) ∈ span) (hutf : validUtf8 span = true)
    (hbad : (1 < span.length ∧ span.head? = some 0x30) ∨ span = [0x2D, 0x30]) :
    decode (0x69 :: span ++ 0x65 :: rest) = .err .InvalidInteger
    ∧ decode [0x69, 0x30, 0x65] = .ok (.Integer 0, [])
    ∧ decode [0x69, 0x2D, 0x33, 0x65] = .ok (.Integer (-3), []) := by
  refine ⟨?_, rfl, rfl⟩
  simp only [List.cons_append]
  rw [decode_cons_i, decodeInteger_span span rest hnoE, if_pos hutf]
  rcases hbad with hlz | hm0
  · rw [if_pos hlz]
  · subst hm0
    rw [if_neg (by decide), if_pos rfl]

/-- Witness for C6 at the span `03` (input `i03e`). -/
theorem claim6_witness :
    decode [0x69, 0x30, 0x33, 0x65] = .err .InvalidInteger
    ∧ decode [0x69, 0x30, 0x65] = .ok (.Integer 0, [])
    ∧ decode [0x69, 0x2D, 0x33, 0x65] = .ok (.Integer (-3), []) := by
  have h := claim6_integer_edge_cases [0x30, 0x33] [] (by decide) (by decide)
    (Or.inl (by decide))
  exact h

/-- Claim C7: an integer production whose digit span (optionally after a
minus sign) denotes a value outside the signed 64-bit range fails with
`InvalidInteger` — the value is never wrapped into range. -/
theorem claim7_integer_overflow (ds rest : List Nat) (n : Nat) (hne : ds ≠ [])
    (hdig : ∀ b ∈ ds, isDigit b = true) (hval : digitsValue ds = some n) :
    (2 ^ 63 ≤ n → decode (0x69 :: ds ++ 0x65 :: rest) = .err .InvalidInteger)
    ∧ (2 ^ 63 < n → decode (0x69 :: 0x2D :: ds ++ 0x65 :: rest) = .err .InvalidInteger) := by
  obtain ⟨d, ds', hd⟩ := List.exists_cons_of_ne_nil hne
  have hdd := isDigit_bounds (hdig d (hd ▸ List.mem_cons_self d ds'))
  have hnoE : ¬ (0x65 : Nat) ∈ ds := fun hm => by
    have := isDigit_bounds (hdig _ hm)
    omega
  have hascii : validUtf8 ds = true := validUtf8_of_ascii ds fun b hb => by
    have := isDigit_bounds (hdig b hb)
    omega
  constructor
  · intro hn
    simp only [List.cons_append]
    rw [decode_cons_i, decodeInteger_span ds rest hnoE, if_pos hascii]
    have hp : parseI64 ds = none := by
      rw [hd, parseI64, if_neg (by omega), if_neg (by omega), ← hd, hval]
      show (if n ≤ 2 ^ 63 - 1 then some ((n : Int)) else none) = none
      rw [if_neg (by omega)]
    by_cases hlz : 1 < ds.length ∧ ds.head? = some 0x30
    · rw [if_pos hlz]
    · rw [if_neg hlz, if_neg ?notMinusZero, hp]
      case notMinusZero =>
        intro he
        have hm : (0x2D : Nat) ∈ ds := by
          rw [he]
          exact List.mem_cons_self _ _
        have := isDigit_bounds (hdig _ hm)
        omega
  · intro hn
    have hnoE2 : ¬ (0x65 : Nat) ∈ 0x2D :: ds := fun hm => by
      rcases List.mem_cons.mp hm with h | h
      · omega
      · exact hnoE h
    have hascii2 : validUtf8 (0x2D :: ds) = true :=
      validUtf8_of_ascii _ fun b hb => by
        rcases List.mem_cons.mp hb with rfl | h
        · omega
        · have := isDigit_bounds (hdig b h)
          omega
    have hstep := decodeInteger_span (0x2D :: ds) rest hnoE2
    simp only [List.cons_append] at hstep
    simp only [List.cons_append]
    rw [decode_cons_i, hstep, if_pos hascii2]
    have hp : parseI64 (0x2D :: ds) = none := by
      rw [parseI64, if_pos rfl, hval]
      show (if n ≤ 2 ^ 63 then some (-(n : Int)) else none) = none
      rw [if_neg (by omega)]
    rw [if_neg (by simp), if_neg ?notMZ, hp]
    case notMZ =>
      intro he
      injection he with h1 h2
      rw [h2] at hval
      have : n = 0 := by
        have h0 : digitsValue [0x30] = some 0 := rfl
        rw [h0] at hval
        injection hval with h3
        omega
      omega

/-- Witness for C7 at twenty nines (`19999...` would not fit either
way): `i99999999999999999999e` and `i-99999999999999999999e` both fail
with `InvalidInteger`. -/
theorem claim7_witness :
    decode (0x69 :: List.replicate 20 0x39 ++ [0x65]) = .err .InvalidInteger
    ∧ decode (0x69 :: 0x2D :: List.replicate 20 0x39 ++ [0x65]) = .err .InvalidInteger := by
  have h := claim7_integer_overflow (List.replicate 20 0x39) [] (10 ^ 20 - 1)
    (by decide) (by decide) (by decide)
  exact ⟨h.1 (by decide), h.2 (by decide)⟩

/-- Claim C8: a dictionary input whose (canonically encoded) entry
sequence contains some key more than once still decodes successfully,
to the map produced by inserting the pairs in input order — so the
result has unique keys and each duplicated key is bound to the value of
its last occurrence (overwrite-on-insert, last-seen-wins). -/
theorem claim8_duplicate_keys_last_wins (pairs : List (List Nat × BencodeType))
    (hwf : wellFormedEntries pairs = true)
    (hdup : ¬ (pairs.map Prod.fst).Nodup) :
    decode (0x64 :: encodeEntries pairs ++ [0x65]) =
      .ok (.Dictionary (btreeInsertAll [] pairs), [])
    ∧ ((btreeInsertAll [] pairs).map Prod.fst).Nodup
    ∧ ∀ k, btreeGet k (btreeInsertAll [] pairs) =
        ((pairs.reverse.find? fun q => decide (q.1 = k)).map Prod.snd) := by
  refine ⟨?_, ?_, ?_⟩
  · simp only [List.cons_append]
    rw [decode]
    have hlen : 2 * (0x64 :: (encodeEntries pairs ++ [0x65])).length + 2 =
        (2 * (encodeEntries pairs).length + 5) + 1 := by
      simp only [List.length_cons, List.length_append, List.length_singleton, List.length_nil]
      omega
    rw [hlen, decodeF, if_neg (by decide), if_neg (by decide), if_pos rfl]
    exact decodeDictF_enc pairs [] [] _ hwf (by omega)
  · exact (btreeInsertAll_keys_pairwise pairs [] (by simp)).nodup
  · intro k
    rw [btreeGet_insertAll k pairs []]
    cases hf : pairs.reverse.find? (fun q => decide (q.1 = k)) with
    | some q => rw [Option.map_some']
    | none => rw [Option.map_none', btreeGet]

/-- Witness for C8 at the duplicate-key input `d1:ai1e1:ai2ee`: the key
`a` ends up bound to the value of its last occurrence, 2. -/
theorem claim8_witness :
    decode [0x64, 0x31, 0x3A, 0x61, 0x69, 0x31, 0x65, 0x31, 0x3A, 0x61, 0x69, 0x32,
      0x65, 0x65] = .ok (.Dictionary [([0x61], .Integer 2)], [])
    ∧ btreeGet [0x61]
        (btreeInsertAll [] [([0x61], .Integer 1), ([0x61], .Integer 2)]) =
      some (.Integer 2) := by
  have h := claim8_duplicate_keys_last_wins
    [([0x61], .Integer 1), ([0x61], .Integer 2)] (by decide) (by decide)
  exact ⟨h.1, h.2.2 [0x61]⟩

/-- Claim C9: a non-empty buffer whose first byte is not `i`, `l`, `d`
or an ASCII digit fails with `UnexpectedCharacter` carrying that
byte. -/
theorem claim9_unexpected_character (c : Nat) (rest : List Nat)
    (h69 : c ≠ 0x69) (h6C : c ≠ 0x6C) (h64 : c ≠ 0x64)
    (hdig : isDigit c = false) :
    decode (c :: rest) = .err (.UnexpectedCharacter c) := by
  rw [decode]
  have hlen : 2 * (c :: rest).length + 2 = (2 * rest.length + 3) + 1 := by
    simp only [List.length_cons]
    omega
  rw [hlen, decodeF, if_neg h69, if_neg h6C, if_neg h64, if_neg (by simp [hdig])]

/-- Witness for C9 at the byte `x`. -/
theorem claim9_witness : decode [0x78] = .err (.UnexpectedCharacter 0x78) :=
  claim9_unexpected_character 0x78 [] (by decide) (by decide) (by decide) (by decide)

/-- Counterexample to C10 as frozen: the span `-0` followed by nineteen
nines starts with `-`, then `0`, then further digits, yet decoding
fails (`InvalidInteger`) instead of returning the corresponding
negative integer, because that integer is below the `i64` minimum. -/
theorem claim10_counterexample :
    decode ([0x69, 0x2D, 0x30] ++ List.replicate 19 0x39 ++ [0x65]) =
      .err .InvalidInteger := rfl

/-- Claim C10 (amended): for every integer span `-0<digits>` (a minus
sign, a zero, then at least one more digit) whose denoted value fits in
`i64`, decoding succeeds and returns the corresponding negative
integer; the leading-zero rejection applies only to spans whose first
character is `0`, so leading zeros after a minus sign are accepted
(e.g. `i-03e` decodes to -3). -/
theorem claim10_minus_leading_zero (ds rest : List Nat) (n : Nat) (hne : ds ≠ [])
    (hdig : ∀ b ∈ ds, isDigit b = true)
    (hval : digitsValue (0x30 :: ds) = some n) (hrange : n ≤ 2 ^ 63) :
    decode (0x69 :: 0x2D :: 0x30 :: ds ++ 0x65 :: rest) =
      .ok (.Integer (-(n : Int)), rest) := by
  have hnoE : ¬ (0x65 : Nat) ∈ 0x2D :: 0x30 :: ds := fun hm => by
    rcases List.mem_cons.mp hm with h | h
    · omega
    · rcases List.mem_cons.mp h with h' | h'
      · omega
      · have := isDigit_bounds (hdig _ h')
        omega
  have hascii : validUtf8 (0x2D :: 0x30 :: ds) = true :=
    validUtf8_of_ascii _ fun b hb => by
      rcases List.mem_cons.mp hb with rfl | h
      · omega
      · rcases List.mem_cons.mp h with rfl | h'
        · omega
        · have := isDigit_bounds (hdig b h')
          omega
  have hstep := decodeInteger_span (0x2D :: 0x30 :: ds) rest hnoE
  simp only [List.cons_append] at hstep
  simp only [List.cons_append]
  rw [decode_cons_i, hstep, if_pos hascii]
  have hp : parseI64 (0x2D :: 0x30 :: ds) = some (-(n : Int)) := by
    rw [parseI64, if_pos rfl, hval]
    show (if n ≤ 2 ^ 63 then some (-(n : Int)) else none) = some (-(n : Int))
    rw [if_pos hrange]
  rw [if_neg (by simp), if_neg ?notMZ, hp]
  case notMZ =>
    intro he
    injection he with h1 h2
    injection h2 with h3 h4
    exact hne h4

/-- Witness for C10 at `i-03e`. -/
theorem claim10_witness :
    decode [0x69, 0x2D, 0x30, 0x33, 0x65] = .ok (.Integer (-3), []) := by
  have h := claim10_minus_leading_zero [0x33] [] 3 (by decide) (by decide) rfl (by decide)
  exact h

end Bencoding
